/-
Verification of the INSS-vs-Mutua dashboard visualization core.

Shallow embedding of the layout logic of `src/visualizations.py`
(`VisualizationManager.create_comparative_chart` and its helpers) and of the
ingestion pipeline of `src/data_processor.py`
(`DataProcessor.load_and_process_data` and its helpers), with the constants of
`config.py`.  Numeric values are modelled as rationals; a pandas
missing value (NaN after `pd.to_numeric(..., errors='coerce')`) is modelled as
`Option.none`; matplotlib drawing calls (`barh`, `plot`, `text`, `axhspan`,
`axhline`) are modelled as constructors of an instruction type.
-/
import Mathlib

namespace Dashboard

/-! ## Constants from `config.py` -/

/-- CONFIG MIN_BAR_HEIGHT = 0.2. -/
def minBarHeight : ℚ := 1/5

/-- CONFIG MAX_BAR_HEIGHT = 0.6. -/
def maxBarHeight : ℚ := 3/5

/-- CONFIG LEFT_MARGIN = 40. -/
def leftMargin : ℚ := 40

/-- CONFIG RIGHT_MARGIN = 40. -/
def rightMargin : ℚ := 40

/-- CONFIG MIN_EPISODIOS = 1. -/
def minEpisodios : ℚ := 1

/-- CONFIG MAX_EPISODIOS = 1000. -/
def maxEpisodios : ℚ := 1000

/-- TEXTS no_variation = "sin variación". -/
def noVariationText : String := "sin variación"

/-! ## Colors and draw instructions -/

/-- Colors used by the chart.  `cmap t` is the fixed RdYlGn_r colormap looked
up at parameter `t` (the colormap itself is an opaque external table, so a
color is identified by its lookup parameter). -/
inductive Color where
  | lightGray
  | darkGray
  | black
  | blue
  | white
  | gray
  | cmap (t : ℚ)
deriving DecidableEq, Repr

/-- One draw instruction.  `rect x0 x1 y h c` is `ax.barh(y, x1-x0, left=x0,
height=h, color=c)`; `line` is the vertical `ax.plot([x,x],[y0,y1])`;
`point` is the `ax.plot(x, y, 'o')` marker; `text` is `ax.text`;
`band` is `ax.axhspan`; `hline` is `ax.axhline`. -/
inductive Instr where
  | rect (x0 x1 y h : ℚ) (c : Color)
  | line (x y0 y1 : ℚ) (c : Color) (w : ℚ)
  | point (x y : ℚ) (c : Color)
  | text (x y : ℚ) (s : String) (c : Color)
  | band (y0 y1 : ℚ) (c : Color)
  | hline (y : ℚ) (c : Color)
deriving DecidableEq, Repr

/-! ## List minimum / maximum (Python `min` / `max` on a nonempty list;
the default on `[]` is never reached by the call sites we verify). -/

def listMin : List ℚ → ℚ
  | [] => 0
  | x :: xs => xs.foldl min x

def listMax : List ℚ → ℚ
  | [] => 0
  | x :: xs => xs.foldl max x

/-! ## Records and frames

A `Row` models one row of the processed DataFrame as seen by the renderer:
the six percentile columns in order [Minmin, P20min, P40min, P60min, P80min,
P99min] (a value of `none` models NaN), the two INSS durations, the volume
metric, and the `percentiles_iguales` flag (false also models the absence of
the attribute).  A `Frame` adds the table-level facts about which columns
exist in the DataFrame. -/

structure Row where
  diagnosis : String
  caso : String
  countEpisodios : Option ℚ
  pvals : List (Option ℚ)
  durestd : Option ℚ
  duropt : Option ℚ
  percentilesIguales : Bool
deriving DecidableEq, Repr

structure Frame where
  /-- Which of the six percentile columns are present in the DataFrame
  (`available_cols`), in column order. -/
  presentPCols : List Bool
  hasDiagCol : Bool
  hasCasoCol : Bool
  hasCountCol : Bool
  rows : List Row
deriving DecidableEq, Repr

/-- The list comprehension
`[row[col] for col in available_cols if pd.notna(row[col])]`:
the row's values at the available percentile columns, in column order,
with missing values dropped. -/
def presentVals (presentCols : List Bool) (pvals : List (Option ℚ)) : List ℚ :=
  (presentCols.zip pvals).filterMap fun bv => if bv.1 then bv.2 else none

/-! ## `_create_percentile_bars` -/

/-- `VisualizationManager._create_percentile_bars`.  If fewer than two
percentile values are present, nothing is drawn.  If the row is flagged
`percentiles_iguales`, one light-gray unit bar at `percentiles[0] - 0.5` and
the fixed "sin variación" text at `percentiles[0] + 1` are drawn.  Otherwise
one bar per adjacent pair of positive width, colored by the colormap at the
pair midpoint normalized over the row's own min/max
(`mcolors.Normalize(vmin=min(percentiles), vmax=max(percentiles))`). -/
def createPercentileBars (presentCols : List Bool) (row : Row)
    (idx height : ℚ) : List Instr :=
  let percentiles := presentVals presentCols row.pvals
  if percentiles.length < 2 then []
  else if row.percentilesIguales then
    [ Instr.rect (percentiles.headD 0 - 1/2) (percentiles.headD 0 - 1/2 + 1)
        idx height Color.lightGray,
      Instr.text (percentiles.headD 0 + 1) idx noVariationText Color.darkGray ]
  else
    let vmin := listMin percentiles
    let vmax := listMax percentiles
    (List.range (percentiles.length - 1)).filterMap fun i =>
      let a := percentiles.getD i 0
      let b := percentiles.getD (i + 1) 0
      let w := b - a
      if 0 < w then
        some (Instr.rect a (a + w) idx height
          (Color.cmap (((a + b) / 2 - vmin) / (vmax - vmin))))
      else none

/-! ## `_add_inss_lines` -/

/-- `VisualizationManager._add_inss_lines`: a vertical black line of width 1.4
at the standard INSS duration spanning the row's height, and a blue point
marker at the optimal INSS duration; each is omitted when the value is
missing. -/
def addInssLines (row : Row) (idx height : ℚ) : List Instr :=
  (match row.durestd with
   | some v => [Instr.line v (idx - height/2) (idx + height/2) Color.black (7/5)]
   | none => []) ++
  (match row.duropt with
   | some v => [Instr.point v idx Color.blue]
   | none => [])

/-! ## `_calculate_bar_heights` -/

/-- `VisualizationManager._calculate_bar_heights`.  The argument is `none`
when the 'Count Episodios' column is absent (then every one of the `n` rows
gets the midpoint height); with the column present it is the list of count
values.  A zero range gives every row the midpoint, otherwise heights scale
linearly.  An empty count list yields an empty height list on either branch,
as in the source. -/
def calculateBarHeights (n : ℕ) (counts : Option (List ℚ)) : List ℚ :=
  match counts with
  | none => List.replicate n ((minBarHeight + maxBarHeight) / 2)
  | some cs =>
    let cmin := listMin cs
    let cmax := listMax cs
    if cmax - cmin = 0 then
      List.replicate cs.length ((minBarHeight + maxBarHeight) / 2)
    else
      cs.map fun c =>
        minBarHeight + (c - cmin) / (cmax - cmin) * (maxBarHeight - minBarHeight)

/-! ## `_add_labels` -/

/-- `VisualizationManager._add_labels`: the diagnosis text right-anchored at
`x_min - left_margin + 2` (when the column exists), and the
`"caso (episodios)"` text left-anchored at `x_max + 5` built from whichever
of the two fields is present (episode counts are truncated to integers by
Python `int`). -/
def addLabels (hasDiagCol hasCasoCol hasCountCol : Bool) (row : Row)
    (idx xMin xMax : ℚ) : List Instr :=
  (if hasDiagCol then
    [Instr.text (xMin - leftMargin + 2) idx row.diagnosis Color.black]
   else []) ++
  (let casoText := if hasCasoCol then row.caso else ""
   let casoText :=
     match (if hasCountCol then row.countEpisodios else none) with
     | some n =>
       if casoText ≠ "" then casoText ++ " (" ++ toString n.floor ++ ")"
       else "(" ++ toString n.floor ++ ")"
     | none => casoText
   if casoText ≠ "" then [Instr.text (xMax + 5) idx casoText Color.black]
   else [])

/-! ## `_add_diagnosis_shading` -/

/-- Lengths of the maximal runs of equal consecutive values
(`labels.ne(labels.shift()).cumsum()` followed by `groupby(...).size()`). -/
def runLengthsGo (cur : String) (n : ℕ) : List String → List ℕ
  | [] => [n]
  | y :: ys => if y = cur then runLengthsGo cur (n + 1) ys
               else n :: runLengthsGo y 1 ys

def runLengths : List String → List ℕ
  | [] => []
  | x :: xs => runLengthsGo x 1 xs

/-- `starts = sizes.cumsum() - sizes` and `ends = sizes.cumsum()`: the
half-open slot interval `[start, end)` of each run, in order. -/
def runBoundsGo (acc : ℕ) : List ℕ → List (ℕ × ℕ)
  | [] => []
  | s :: rest => (acc, acc + s) :: runBoundsGo (acc + s) rest

def runBounds (sizes : List ℕ) : List (ℕ × ℕ) := runBoundsGo 0 sizes

/-- The loop body of `_add_diagnosis_shading` for one enumerated run
`(i, (start, end))`: the `axhspan` band from `start - 0.2` to `end - 0.2`
(light gray for even `i`, white for odd), and for every run but the first the
gray dashed `axhline` separator at `start - 0.2`. -/
def shadingChunk (ib : ℕ × (ℕ × ℕ)) : List Instr :=
  [Instr.band ((ib.2.1 : ℚ) - 1/5) ((ib.2.2 : ℚ) - 1/5)
     (if ib.1 % 2 = 0 then Color.lightGray else Color.white)] ++
  (if ib.1 ≠ 0 then [Instr.hline ((ib.2.1 : ℚ) - 1/5) Color.gray] else [])

/-- `VisualizationManager._add_diagnosis_shading`: nothing when the
'Diagnóstico' column is absent; otherwise one `shadingChunk` per maximal run
of equal consecutive diagnosis values. -/
def addDiagnosisShading (hasDiagCol : Bool) (labels : List String) : List Instr :=
  if hasDiagCol then
    ((runBounds (runLengths labels)).enum.map shadingChunk).flatten
  else []

/-! ## `create_comparative_chart` -/

inductive ChartError where
  | emptyInput
  | missingDomainColumns
deriving DecidableEq, Repr

/-- `VisualizationManager.create_comparative_chart`.  An empty DataFrame and
a DataFrame with none of the six percentile columns abort before any drawing
(`st.warning` / `st.error` followed by `return None`; the two aborts are
distinguished here by the error value).  Otherwise the x-domain is the
min/max over all present percentile values, heights are computed once, and
every row contributes its percentile bars, INSS lines and labels, followed by
the diagnosis shading (drawn after `invert_yaxis`).  Axis cosmetics
(`_customize_chart`) and the legend (`_add_legend`) emit no geometry tied to
the data and are not modelled.  A `none` count enters the height computation
as 0 here; the ingestion pipeline (see `cleanData`) guarantees counts are
present. -/
def createComparativeChart (f : Frame) : Except ChartError (List Instr) :=
  if f.rows.length = 0 then Except.error ChartError.emptyInput
  else if f.presentPCols.count true = 0 then
    Except.error ChartError.missingDomainColumns
  else
    let vals := (f.rows.map fun r => presentVals f.presentPCols r.pvals).flatten
    let xMin := listMin vals
    let xMax := listMax vals
    let heights := calculateBarHeights f.rows.length
      (if f.hasCountCol then some (f.rows.map fun r => r.countEpisodios.getD 0)
       else none)
    let perRow := (f.rows.enum.map fun ir =>
      createPercentileBars f.presentPCols ir.2 (ir.1 : ℚ) (heights.getD ir.1 0) ++
      addInssLines ir.2 (ir.1 : ℚ) (heights.getD ir.1 0) ++
      addLabels f.hasDiagCol f.hasCasoCol f.hasCountCol ir.2 (ir.1 : ℚ) xMin xMax).flatten
    Except.ok (perRow ++ addDiagnosisShading f.hasDiagCol (f.rows.map Row.diagnosis))

/-! ## Ingestion pipeline (`data_processor.py`)

`load_and_process_data` validates the required columns, renames them, then
runs `_clean_data` (numeric coercion, `dropna` over the nine numeric columns,
`_validate_ranges`), `_sort_data` and `_calculate_additional_fields`.  After
`_validate_columns` succeeds all nine numeric columns exist, so a `RawRow`
carries them all, each as `Option ℚ` (`none` = NaN after coercion).  `pvals`
lists the six percentile columns in order. -/

structure RawRow where
  diagnosis : String
  genero : String
  edad : String
  caso : String
  countEpisodios : Option ℚ
  durestd : Option ℚ
  duropt : Option ℚ
  pvals : List (Option ℚ)
deriving DecidableEq, Repr

/-- The `dropna(subset=NUMERIC_COLUMNS)` predicate: the row is kept iff none
of the nine numeric values is missing. -/
def rowComplete (r : RawRow) : Bool :=
  r.durestd.isSome && r.duropt.isSome && r.countEpisodios.isSome &&
    r.pvals.all Option.isSome

/-- Elementwise `df[col] >= c` as pandas evaluates it: `False` on NaN. -/
def geQ (x : Option ℚ) (c : ℚ) : Bool :=
  match x with
  | some v => decide (c ≤ v)
  | none => false

/-- Elementwise `df[col] <= c`, `False` on NaN. -/
def leQ (x : Option ℚ) (c : ℚ) : Bool :=
  match x with
  | some v => decide (v ≤ c)
  | none => false

/-- `DataProcessor._validate_ranges`: successive filters keeping rows with
nonnegative durations ('Durestd Inss min', 'Duropt Inss min' and the six
percentile columns) and an episode count within
[MIN_EPISODIOS, MAX_EPISODIOS]. -/
def validateRanges (rows : List RawRow) : List RawRow :=
  ((((rows.filter fun r => geQ r.durestd 0).filter
      fun r => geQ r.duropt 0).filter
      fun r => r.pvals.all fun p => geQ p 0).filter
      fun r => geQ r.countEpisodios minEpisodios).filter
      fun r => leQ r.countEpisodios maxEpisodios

/-- `DataProcessor._clean_data`: numeric coercion is upstream of this model
(a non-numeric cell is already `none`), then `dropna` over the nine numeric
columns, then `_validate_ranges`. -/
def cleanData (rows : List RawRow) : List RawRow :=
  validateRanges (rows.filter rowComplete)

/-- EDAD_ORDEN as a categorical: position of the age group in the fixed
order, with unknown values last (pandas sorts unknown categories as NaN,
after every known category). -/
def edadIdx (s : String) : ℕ :=
  match (["16-25", "26-35", "36-45", "46-55", "56-65"].indexOf? s) with
  | some i => i
  | none => 5

/-- The `sort_values(by=['Diagnóstico', 'Cod Genero', 'Gr Edad 10'])` key
order: lexicographic on the three key columns. -/
def sortLe (a b : RawRow) : Bool :=
  match compare a.diagnosis b.diagnosis with
  | Ordering.lt => true
  | Ordering.gt => false
  | Ordering.eq =>
    match compare a.genero b.genero with
    | Ordering.lt => true
    | Ordering.gt => false
    | Ordering.eq => edadIdx a.edad ≤ edadIdx b.edad

def insertSorted (r : RawRow) : List RawRow → List RawRow
  | [] => [r]
  | x :: xs => if sortLe r x then r :: x :: xs else x :: insertSorted r xs

/-- `DataProcessor._sort_data`: a stable sort of the rows by the key order
(`reset_index(drop=True)` has no counterpart here since rows are positional
already). -/
def sortData : List RawRow → List RawRow
  | [] => []
  | x :: xs => insertSorted x (sortData xs)

/-- Count of distinct non-null values in a row across the percentile columns
(`df[percentile_cols].nunique(axis=1)`, which ignores NaN). -/
def distinctPresent (pvals : List (Option ℚ)) : ℕ :=
  (pvals.filterMap id).dedup.length

/-- The `percentiles_iguales` flag: `nunique(axis=1) == 1`. -/
def percentilesIgualesFlag (pvals : List (Option ℚ)) : Bool :=
  distinctPresent pvals == 1

/-- A processed row as returned by `load_and_process_data`: the raw fields
plus the fields added by `_calculate_additional_fields`. -/
structure ProcRow extends RawRow where
  percentilesIguales : Bool
  difEstandar : Option ℚ
  difOptima : Option ℚ
deriving DecidableEq, Repr

/-- NaN-propagating subtraction of two columns. -/
def subO (a b : Option ℚ) : Option ℚ :=
  match a, b with
  | some x, some y => some (x - y)
  | _, _ => none

/-- `DataProcessor._calculate_additional_fields`: the `percentiles_iguales`
flag and the two INSS-vs-Mutua differences (`P60min` is the percentile
column at index 3). -/
def calcAdditionalFields (rows : List RawRow) : List ProcRow :=
  rows.map fun r =>
    { r with
      percentilesIguales := percentilesIgualesFlag r.pvals
      difEstandar := subO r.durestd (r.pvals.getD 3 none)
      difOptima := subO r.duropt (r.pvals.getD 3 none) }

/-- `DataProcessor.load_and_process_data` after a successful column
validation and renaming: clean, sort, add computed fields. -/
def loadAndProcess (rows : List RawRow) : List ProcRow :=
  calcAdditionalFields (sortData (cleanData rows))

/-! ## Observation functions on instruction lists and spec-side measures -/

/-- The band instructions of an instruction list, with their data. -/
def bandData (l : List Instr) : List (ℚ × ℚ × Color) :=
  l.filterMap fun i =>
    match i with
    | Instr.band y0 y1 c => some (y0, y1, c)
    | _ => none

/-- The horizontal separator instructions of an instruction list. -/
def hlineData (l : List Instr) : List (ℚ × Color) :=
  l.filterMap fun i =>
    match i with
    | Instr.hline y c => some (y, c)
    | _ => none

/-- The vertical-line instructions of an instruction list. -/
def lineInstrs (l : List Instr) : List Instr :=
  l.filter fun i =>
    match i with
    | Instr.line _ _ _ _ _ => true
    | _ => false

/-- The point-marker instructions of an instruction list. -/
def pointInstrs (l : List Instr) : List Instr :=
  l.filter fun i =>
    match i with
    | Instr.point _ _ _ => true
    | _ => false

/-- The number of maximal runs of equal consecutive values: one for a
nonempty tail plus one more at each position whose value differs from its
successor. -/
def numRuns : List String → ℕ
  | [] => 0
  | [_] => 1
  | x :: y :: t => (if x = y then 0 else 1) + numRuns (y :: t)

/-- The number of adjacent index pairs `(i, i+1)` of a value list whose
second component is strictly larger. -/
def posPairsCount (l : List ℚ) : ℕ :=
  ((List.range (l.length - 1)).filter fun i =>
    decide (l.getD i 0 < l.getD (i + 1) 0)).length

/-- `chainFrom a intervals b`: the half-open intervals tile `[a, b)` exactly
in order, with no gaps, no overlaps and no empty interval. -/
def chainFrom : ℕ → List (ℕ × ℕ) → ℕ → Prop
  | a, [], b => a = b
  | a, se :: rest, b => se.1 = a ∧ a < se.2 ∧ chainFrom se.2 rest b

/-! ## Concrete fixtures used by witnesses and counterexamples -/

/-- All six percentile columns present in the DataFrame. -/
def allTrue : List Bool := [true, true, true, true, true, true]

/-- A row with a strictly increasing six-point distribution. -/
def rowVar : Row :=
  { diagnosis := "A", caso := "c1", countEpisodios := some 15,
    pvals := [some 10, some 15, some 20, some 25, some 30, some 35],
    durestd := some 22, duropt := some 18, percentilesIguales := false }

/-- A constant-distribution row: all six percentiles equal 20. -/
def rowConstW : Row :=
  { diagnosis := "A", caso := "c2", countEpisodios := some 8,
    pvals := [some 20, some 20, some 20, some 20, some 20, some 20],
    durestd := none, duropt := none, percentilesIguales := true }

/-- A constant-distribution row with a single present percentile value. -/
def rowSingleW : Row :=
  { diagnosis := "B", caso := "c3", countEpisodios := some 8,
    pvals := [some 20, none, none, none, none, none],
    durestd := none, duropt := none, percentilesIguales := true }

/-- A non-constant row with a non-monotonic adjacent pair (25 then 18). -/
def rowNonMono : Row :=
  { diagnosis := "B", caso := "c4", countEpisodios := some 3,
    pvals := [some 10, some 25, some 18, some 30, none, some 30],
    durestd := some 12, duropt := none, percentilesIguales := false }

/-- A frame with one row whose DataFrame lacks all six percentile columns. -/
def frameNoPCols : Frame :=
  { presentPCols := [false, false, false, false, false, false],
    hasDiagCol := true, hasCasoCol := true, hasCountCol := true,
    rows := [rowVar] }

/-- A frame with all columns present and two rows. -/
def frameW : Frame :=
  { presentPCols := allTrue,
    hasDiagCol := true, hasCasoCol := true, hasCountCol := true,
    rows := [rowVar, rowNonMono] }

/-- A raw row as read from the spreadsheet after renaming and coercion. -/
def rawW : RawRow :=
  { diagnosis := "A", genero := "M", edad := "16-25", caso := "c",
    countEpisodios := some 5, durestd := some 10, duropt := some 8,
    pvals := [some 1, some 2, some 3, some 4, some 5, some 6] }

/-- The processed row `loadAndProcess` produces from `rawW`: the flag is
false (six distinct percentile values) and the differences are 10 - 4 = 6
and 8 - 4 = 4. -/
def procW : ProcRow :=
  { toRawRow := rawW,
    percentilesIguales := percentilesIgualesFlag rawW.pvals,
    difEstandar := subO rawW.durestd (rawW.pvals.getD 3 none),
    difOptima := subO rawW.duropt (rawW.pvals.getD 3 none) }

/-! ## Lemmas about list minimum and maximum -/

theorem foldl_min_le_init (xs : List ℚ) (a : ℚ) : xs.foldl min a ≤ a := by
  induction xs generalizing a with
  | nil => simp
  | cons x xs ih =>
    exact le_trans (ih (min a x)) (min_le_left a x)

theorem foldl_min_le_mem (xs : List ℚ) (a y : ℚ) (hy : y ∈ xs) :
    xs.foldl min a ≤ y := by
  induction xs generalizing a with
  | nil => cases hy
  | cons x xs ih =>
    rcases List.mem_cons.mp hy with h | h
    · subst h
      exact le_trans (foldl_min_le_init xs (min a y)) (min_le_right a y)
    · exact ih (min a x) h

theorem init_le_foldl_max (xs : List ℚ) (a : ℚ) : a ≤ xs.foldl max a := by
  induction xs generalizing a with
  | nil => simp
  | cons x xs ih =>
    exact le_trans (le_max_left a x) (ih (max a x))

theorem mem_le_foldl_max (xs : List ℚ) (a y : ℚ) (hy : y ∈ xs) :
    y ≤ xs.foldl max a := by
  induction xs generalizing a with
  | nil => cases hy
  | cons x xs ih =>
    rcases List.mem_cons.mp hy with h | h
    · subst h
      exact le_trans (le_max_right a y) (init_le_foldl_max xs (max a y))
    · exact ih (max a x) h

theorem listMin_le (l : List ℚ) (y : ℚ) (hy : y ∈ l) : listMin l ≤ y := by
  cases l with
  | nil => cases hy
  | cons x xs =>
    rcases List.mem_cons.mp hy with h | h
    · subst h; exact foldl_min_le_init xs y
    · exact foldl_min_le_mem xs x y h

theorem le_listMax (l : List ℚ) (y : ℚ) (hy : y ∈ l) : y ≤ listMax l := by
  cases l with
  | nil => cases hy
  | cons x xs =>
    rcases List.mem_cons.mp hy with h | h
    · subst h; exact init_le_foldl_max xs y
    · exact mem_le_foldl_max xs x y h

/-! ## Bar heights (GeometryScaler) -/

theorem barHeight_mem_bounds (n : ℕ) (counts : Option (List ℚ)) (h : ℚ)
    (hh : h ∈ calculateBarHeights n counts) :
    minBarHeight ≤ h ∧ h ≤ maxBarHeight := by
  cases counts with
  | none =>
    simp only [calculateBarHeights] at hh
    rw [List.eq_of_mem_replicate hh]
    constructor <;> norm_num [minBarHeight, maxBarHeight]
  | some cs =>
    simp only [calculateBarHeights] at hh
    by_cases hr : listMax cs - listMin cs = 0
    · rw [if_pos hr] at hh
      rw [List.eq_of_mem_replicate hh]
      constructor <;> norm_num [minBarHeight, maxBarHeight]
    · rw [if_neg hr] at hh
      rcases List.mem_map.mp hh with ⟨c, hc, rfl⟩
      have h1 : listMin cs ≤ c := listMin_le cs c hc
      have h2 : c ≤ listMax cs := le_listMax cs c hc
      have hle : listMin cs ≤ listMax cs := le_trans h1 h2
      have hpos : 0 < listMax cs - listMin cs := by
        rcases lt_or_eq_of_le hle with hlt | heq
        · linarith
        · exact absurd (by linarith) hr
      have ht0 : 0 ≤ (c - listMin cs) / (listMax cs - listMin cs) :=
        div_nonneg (by linarith) (le_of_lt hpos)
      have ht1 : (c - listMin cs) / (listMax cs - listMin cs) ≤ 1 :=
        (div_le_one hpos).mpr (by linarith)
      constructor
      · norm_num [minBarHeight, maxBarHeight]
        nlinarith
      · norm_num [minBarHeight, maxBarHeight]
        nlinarith

/-- C4: for every episode_count distribution, each computed row height lies
within [MIN_BAR_HEIGHT, MAX_BAR_HEIGHT] inclusive; when the count range is
zero or the volume metric column is absent, every height equals the exact
midpoint (MIN_BAR_HEIGHT + MAX_BAR_HEIGHT) / 2, and otherwise each height
equals MIN + (count - count_min) / (count_max - count_min) * (MAX - MIN);
the computation is a total function, so it never errors. -/
theorem claim4_heights_bounded (n : ℕ) (counts : Option (List ℚ)) :
    (∀ h ∈ calculateBarHeights n counts, minBarHeight ≤ h ∧ h ≤ maxBarHeight) ∧
    (counts = none →
      calculateBarHeights n counts =
        List.replicate n ((minBarHeight + maxBarHeight) / 2)) ∧
    (∀ cs, counts = some cs → listMax cs - listMin cs = 0 →
      calculateBarHeights n counts =
        List.replicate cs.length ((minBarHeight + maxBarHeight) / 2)) ∧
    (∀ cs, counts = some cs → listMax cs - listMin cs ≠ 0 →
      calculateBarHeights n counts = cs.map fun c =>
        minBarHeight + (c - listMin cs) / (listMax cs - listMin cs) *
          (maxBarHeight - minBarHeight)) := by
  refine ⟨fun h hh => barHeight_mem_bounds n counts h hh, ?_, ?_, ?_⟩
  · rintro rfl
    simp only [calculateBarHeights]
  · rintro cs rfl hr
    simp only [calculateBarHeights, if_pos hr]
  · rintro cs rfl hr
    simp only [calculateBarHeights, if_neg hr]

/-- Witness for C4 at the concrete distribution [15, 8, 12]: the height of
the first row, (15 - 8) / 7 scaled into [0.2, 0.6], is 0.6 and lies within
the bounds. -/
theorem claim4_witness :
    minBarHeight ≤ (3/5 : ℚ) ∧ (3/5 : ℚ) ≤ maxBarHeight := by
  have hmem : (3/5 : ℚ) ∈ calculateBarHeights 3 (some [15, 8, 12]) := by
    norm_num [calculateBarHeights, listMin, listMax, minBarHeight, maxBarHeight]
  exact (claim4_heights_bounded 3 (some [15, 8, 12])).1 (3/5) hmem

/-- C1 (amended): for every record with constant_distribution = true and at
least 2 present percentile values, exactly one rectangle spanning
[value - 0.5, value + 0.5] with the light-gray fill is emitted, plus exactly
one "sin variación" text instruction immediately to its right (at
value + 1), regardless of how many identical percentile values are present.
With fewer than 2 present percentile values nothing is emitted (see the
counterexample), so the original claim's "including when only one percentile
value is present" does not hold of the code. -/
theorem claim1_constant_distribution (pc : List Bool) (r : Row) (idx ht : ℚ)
    (hconst : r.percentilesIguales = true)
    (h2 : 2 ≤ (presentVals pc r.pvals).length) :
    createPercentileBars pc r idx ht =
      [ Instr.rect ((presentVals pc r.pvals).headD 0 - 1/2)
          ((presentVals pc r.pvals).headD 0 + 1/2) idx ht Color.lightGray,
        Instr.text ((presentVals pc r.pvals).headD 0 + 1) idx noVariationText
          Color.darkGray ] := by
  simp only [createPercentileBars]
  rw [if_neg (by omega), if_pos hconst]
  have he : (presentVals pc r.pvals).headD 0 - 1/2 + 1
      = (presentVals pc r.pvals).headD 0 + 1/2 := by ring
  rw [he]

/-- Counterexample to C1 as stated: `rowSingleW` has
constant_distribution = true and exactly one present percentile value, yet
`_create_percentile_bars` returns before drawing anything (the
`len(percentiles) < 2` guard), so no rectangle and no "sin variación" text
is emitted for it. -/
theorem claim1_counterexample :
    createPercentileBars allTrue rowSingleW 2 (2/5) = [] := rfl

/-- Witness for C1 (amended) at the constant row `rowConstW` (six present
values, all 20). -/
theorem claim1_witness :
    createPercentileBars allTrue rowConstW 1 (2/5) =
      [ Instr.rect (20 - 1/2) (20 + 1/2) 1 (2/5) Color.lightGray,
        Instr.text (20 + 1) 1 noVariationText Color.darkGray ] := by
  have h2 : 2 ≤ (presentVals allTrue rowConstW.pvals).length := by
    simp [presentVals, allTrue, rowConstW]
  have h := claim1_constant_distribution allTrue rowConstW 1 (2/5) rfl h2
  simpa [presentVals, allTrue, rowConstW] using h

/-- C7: for a record at row `idx` with height `ht`, a present
standard_duration yields exactly one vertical line at x = standard_duration
spanning slot ± height/2 (black, width 1.4) and a present optimal_duration
yields exactly one point marker at (optimal_duration, slot) (blue); an
absent value yields no corresponding instruction, and the computation is
total, so absence raises no error. -/
theorem claim7_inss_markers (r : Row) (idx ht : ℚ) :
    (∀ v, r.durestd = some v →
      lineInstrs (addInssLines r idx ht) =
        [Instr.line v (idx - ht/2) (idx + ht/2) Color.black (7/5)]) ∧
    (r.durestd = none → lineInstrs (addInssLines r idx ht) = []) ∧
    (∀ v, r.duropt = some v →
      pointInstrs (addInssLines r idx ht) = [Instr.point v idx Color.blue]) ∧
    (r.duropt = none → pointInstrs (addInssLines r idx ht) = []) := by
  cases hd : r.durestd <;> cases ho : r.duropt <;>
    simp [addInssLines, lineInstrs, pointInstrs, hd, ho]

/-- Witness for C7 at `rowVar` (standard 22, optimal 18) and `rowSingleW`
(both values absent). -/
theorem claim7_witness :
    lineInstrs (addInssLines rowVar 0 (2/5)) =
      [Instr.line 22 (0 - (2/5)/2) (0 + (2/5)/2) Color.black (7/5)] ∧
    pointInstrs (addInssLines rowVar 0 (2/5)) = [Instr.point 18 0 Color.blue] ∧
    lineInstrs (addInssLines rowSingleW 3 (2/5)) = [] ∧
    pointInstrs (addInssLines rowSingleW 3 (2/5)) = [] :=
  ⟨(claim7_inss_markers rowVar 0 (2/5)).1 22 rfl,
   (claim7_inss_markers rowVar 0 (2/5)).2.2.1 18 rfl,
   (claim7_inss_markers rowSingleW 3 (2/5)).2.1 rfl,
   (claim7_inss_markers rowSingleW 3 (2/5)).2.2.2 rfl⟩

/-- C8: for a nonempty input whose DataFrame has none of the six percentile
columns, `create_comparative_chart` aborts with the missing-domain-columns
error before emitting any draw instruction (the result carries an error, not
an instruction list, so zero rectangles, lines, points, texts or bands are
produced). -/
theorem claim8_missing_columns (f : Frame) (hne : f.rows.length ≠ 0)
    (hmiss : f.presentPCols.count true = 0) :
    createComparativeChart f = Except.error ChartError.missingDomainColumns := by
  simp only [createComparativeChart]
  rw [if_neg hne, if_pos hmiss]

/-- Witness for C8 at `frameNoPCols`: one row, no percentile column. -/
theorem claim8_witness :
    createComparativeChart frameNoPCols =
      Except.error ChartError.missingDomainColumns :=
  claim8_missing_columns frameNoPCols (by decide) (by decide)

/-! ## Rectangles always have positive width -/

theorem length_filterMap_ite {α β : Type} (l : List α) (p : α → Prop)
    [DecidablePred p] (g : α → β) :
    (l.filterMap fun a => if p a then some (g a) else none).length =
      (l.filter fun a => decide (p a)).length := by
  induction l with
  | nil => rfl
  | cons x xs ih =>
    by_cases h : p x <;> simp [h, ih]

theorem rect_mem_bars_lt (pc : List Bool) (r : Row) (idx ht : ℚ)
    (x0 x1 y h : ℚ) (c : Color)
    (hmem : Instr.rect x0 x1 y h c ∈ createPercentileBars pc r idx ht) :
    x0 < x1 := by
  simp only [createPercentileBars] at hmem
  split_ifs at hmem with hlen hc
  · cases hmem
  · simp only [List.mem_cons, List.not_mem_nil, or_false] at hmem
    rcases hmem with h1 | h1
    · rw [Instr.rect.injEq] at h1
      obtain ⟨rfl, rfl, -, -, -⟩ := h1
      linarith
    · simp at h1
  · rcases List.mem_filterMap.mp hmem with ⟨i, -, hfi⟩
    split_ifs at hfi with hw
    simp only [Option.some.injEq, Instr.rect.injEq] at hfi
    obtain ⟨rfl, rfl, -, -, -⟩ := hfi
    linarith

theorem rect_not_mem_inss (r : Row) (idx ht x0 x1 y h : ℚ) (c : Color) :
    Instr.rect x0 x1 y h c ∉ addInssLines r idx ht := by
  cases hd : r.durestd <;> cases ho : r.duropt <;>
    simp [addInssLines, hd, ho]

theorem rect_not_mem_labels (b1 b2 b3 : Bool) (r : Row) (idx xm xM : ℚ)
    (x0 x1 y h : ℚ) (c : Color) :
    Instr.rect x0 x1 y h c ∉ addLabels b1 b2 b3 r idx xm xM := by
  intro hi
  simp only [addLabels] at hi
  rcases List.mem_append.mp hi with hm | hm
  · split_ifs at hm <;> simp at hm
  · cases b3 <;> cases hce : r.countEpisodios <;>
      simp only [hce, Bool.false_eq_true, if_false, if_true] at hm <;>
      split_ifs at hm <;> simp at hm

theorem rect_not_mem_shading (b : Bool) (labels : List String)
    (x0 x1 y h : ℚ) (c : Color) :
    Instr.rect x0 x1 y h c ∉ addDiagnosisShading b labels := by
  intro hmem
  unfold addDiagnosisShading at hmem
  split_ifs at hmem
  · rcases List.mem_flatten.mp hmem with ⟨l, hl, hil⟩
    rcases List.mem_map.mp hl with ⟨ib, -, rfl⟩
    revert hil
    simp only [shadingChunk]
    split_ifs <;> simp
  · cases hmem

/-- Positive width for any rectangle in the composed per-row and shading
instruction stream, for arbitrary heights, x-domain and column flags. -/
theorem rect_mem_composed_lt (pc : List Bool) (b1 b2 b3 : Bool)
    (rows : List Row) (hts : List ℚ) (xm xM : ℚ)
    (x0 x1 y h : ℚ) (c : Color)
    (hmem : Instr.rect x0 x1 y h c ∈
      (rows.enum.map fun ir =>
        createPercentileBars pc ir.2 (ir.1 : ℚ) (hts.getD ir.1 0) ++
        addInssLines ir.2 (ir.1 : ℚ) (hts.getD ir.1 0) ++
        addLabels b1 b2 b3 ir.2 (ir.1 : ℚ) xm xM).flatten ++
      addDiagnosisShading b1 (rows.map Row.diagnosis)) :
    x0 < x1 := by
  rcases List.mem_append.mp hmem with hm | hm
  · rcases List.mem_flatten.mp hm with ⟨l, hl, hil⟩
    rcases List.mem_map.mp hl with ⟨ir, -, rfl⟩
    rcases List.mem_append.mp hil with hb | hb
    · rcases List.mem_append.mp hb with hb2 | hb2
      · exact rect_mem_bars_lt _ _ _ _ _ _ _ _ _ hb2
      · exact absurd hb2 (rect_not_mem_inss _ _ _ _ _ _ _ _)
    · exact absurd hb (rect_not_mem_labels _ _ _ _ _ _ _ _ _ _ _ _)
  · exact absurd hm (rect_not_mem_shading _ _ _ _ _ _ _)

/-- C2: chart generation never emits a rectangle whose right edge x1 is at
or left of its left edge x0, and every adjacent percentile pair (v_i,
v_{i+1}) with v_{i+1} ≤ v_i (ties included) is silently skipped: for a
non-constant record the number of rectangles emitted equals the number of
strictly increasing adjacent pairs, and all functions involved are total, so
skipping raises no error. -/
theorem claim2_no_degenerate_rect :
    (∀ f instrs, createComparativeChart f = Except.ok instrs →
      ∀ x0 x1 y h c, Instr.rect x0 x1 y h c ∈ instrs → x0 < x1) ∧
    (∀ pc r idx ht, r.percentilesIguales = false →
      (createPercentileBars pc r idx ht).length =
        posPairsCount (presentVals pc r.pvals)) := by
  constructor
  · intro f instrs hok x0 x1 y h c hmem
    simp only [createComparativeChart] at hok
    split_ifs at hok <;>
      (injection hok with hok
       subst hok
       exact rect_mem_composed_lt _ _ _ _ _ _ _ _ _ _ _ _ _ hmem)
  · intro pc r idx ht hc
    simp only [createPercentileBars, hc]
    split_ifs with hlen h2
    · unfold posPairsCount
      have h0 : (presentVals pc r.pvals).length - 1 = 0 := by omega
      rw [h0]
      rfl
    · cases h2
    · unfold posPairsCount
      have hlfm := length_filterMap_ite
        (List.range ((presentVals pc r.pvals).length - 1))
        (fun i => 0 < (presentVals pc r.pvals).getD (i + 1) 0 -
          (presentVals pc r.pvals).getD i 0)
        (fun i => Instr.rect ((presentVals pc r.pvals).getD i 0)
          ((presentVals pc r.pvals).getD i 0 +
            ((presentVals pc r.pvals).getD (i + 1) 0 -
              (presentVals pc r.pvals).getD i 0)) idx ht
          (Color.cmap ((((presentVals pc r.pvals).getD i 0 +
              (presentVals pc r.pvals).getD (i + 1) 0) / 2 -
              listMin (presentVals pc r.pvals)) /
            (listMax (presentVals pc r.pvals) -
              listMin (presentVals pc r.pvals)))))
      rw [hlfm]
      congr 1
      apply List.filter_congr
      intro i _
      exact decide_eq_decide.mpr sub_pos

/-- Witness for C2 at `rowNonMono`, whose pair (25, 18) is non-monotonic:
the number of rectangles equals the number of strictly increasing adjacent
pairs. -/
theorem claim2_witness :
    (createPercentileBars allTrue rowNonMono 0 (2/5)).length =
      posPairsCount (presentVals allTrue rowNonMono.pvals) :=
  claim2_no_degenerate_rect.2 allTrue rowNonMono 0 (2/5) rfl

/-- C3: for a non-constant record, the segment between the adjacent present
values at positions i and i+1 (when drawn, i.e. when they strictly increase)
is colored by the fixed color scale evaluated at norm((v_i + v_{i+1}) / 2)
with norm(v) = (v - local_min) / (local_max - local_min) over the record's
own present percentile values, not the global x-domain and not an
interpolation of the endpoint colors. -/
theorem claim3_segment_color (pc : List Bool) (r : Row) (idx ht : ℚ) (i : ℕ)
    (hconst : r.percentilesIguales = false)
    (hi : i + 1 < (presentVals pc r.pvals).length)
    (hpos : (presentVals pc r.pvals).getD i 0 <
      (presentVals pc r.pvals).getD (i + 1) 0) :
    Instr.rect ((presentVals pc r.pvals).getD i 0)
      ((presentVals pc r.pvals).getD (i + 1) 0) idx ht
      (Color.cmap ((((presentVals pc r.pvals).getD i 0 +
          (presentVals pc r.pvals).getD (i + 1) 0) / 2 -
          listMin (presentVals pc r.pvals)) /
        (listMax (presentVals pc r.pvals) -
          listMin (presentVals pc r.pvals))))
      ∈ createPercentileBars pc r idx ht := by
  simp only [createPercentileBars, hconst]
  rw [if_neg (by omega), if_neg (by simp)]
  apply List.mem_filterMap.mpr
  refine ⟨i, List.mem_range.mpr (by omega), ?_⟩
  rw [if_pos (sub_pos.mpr hpos)]
  have he : (presentVals pc r.pvals).getD i 0 +
      ((presentVals pc r.pvals).getD (i + 1) 0 -
        (presentVals pc r.pvals).getD i 0) =
      (presentVals pc r.pvals).getD (i + 1) 0 := by ring
  rw [he]

/-- Witness for C3 at `rowVar`, pair (10, 15): the segment color is the
colormap at ((10 + 15) / 2 - 10) / (35 - 10). -/
theorem claim3_witness :
    Instr.rect ((presentVals allTrue rowVar.pvals).getD 0 0)
      ((presentVals allTrue rowVar.pvals).getD 1 0) 0 (2/5)
      (Color.cmap ((((presentVals allTrue rowVar.pvals).getD 0 0 +
          (presentVals allTrue rowVar.pvals).getD 1 0) / 2 -
          listMin (presentVals allTrue rowVar.pvals)) /
        (listMax (presentVals allTrue rowVar.pvals) -
          listMin (presentVals allTrue rowVar.pvals))))
      ∈ createPercentileBars allTrue rowVar 0 (2/5) :=
  claim3_segment_color allTrue rowVar 0 (2/5) 0 rfl (by decide) (by decide)

/-! ## Runs, bounds and shading structure -/

theorem runLengthsGo_sum (xs : List String) : ∀ (cur : String) (n : ℕ),
    (runLengthsGo cur n xs).sum = n + xs.length := by
  induction xs with
  | nil => intro cur n; simp [runLengthsGo]
  | cons y ys ih =>
    intro cur n
    by_cases h : y = cur
    · simp only [runLengthsGo, if_pos h, ih]
      simp; omega
    · simp only [runLengthsGo, if_neg h, List.sum_cons, ih]
      simp; omega

theorem runLengths_sum (l : List String) : (runLengths l).sum = l.length := by
  cases l with
  | nil => rfl
  | cons x xs =>
    simp [runLengths, runLengthsGo_sum]
    omega

theorem runLengthsGo_pos (xs : List String) : ∀ (cur : String) (n : ℕ),
    0 < n → ∀ s ∈ runLengthsGo cur n xs, 0 < s := by
  induction xs with
  | nil =>
    intro cur n hn s hs
    simp only [runLengthsGo, List.mem_singleton] at hs
    omega
  | cons y ys ih =>
    intro cur n hn s hs
    by_cases h : y = cur
    · rw [runLengthsGo, if_pos h] at hs
      exact ih cur (n + 1) (by omega) s hs
    · rw [runLengthsGo, if_neg h] at hs
      rcases List.mem_cons.mp hs with rfl | hs'
      · omega
      · exact ih y 1 (by omega) s hs'

theorem runLengths_pos (l : List String) : ∀ s ∈ runLengths l, 0 < s := by
  cases l with
  | nil => intro s hs; cases hs
  | cons x xs => exact runLengthsGo_pos xs x 1 (by omega)

theorem runLengthsGo_length (xs : List String) : ∀ (cur : String) (n : ℕ),
    (runLengthsGo cur n xs).length = numRuns (cur :: xs) := by
  induction xs with
  | nil => intro cur n; simp [runLengthsGo, numRuns]
  | cons y ys ih =>
    intro cur n
    by_cases h : y = cur
    · subst h
      simp [runLengthsGo, numRuns, ih]
    · have h2 : ¬(cur = y) := fun hc => h hc.symm
      simp [runLengthsGo, numRuns, h, h2, ih]
      omega

theorem runLengths_length (l : List String) :
    (runLengths l).length = numRuns l := by
  cases l with
  | nil => rfl
  | cons x xs => exact runLengthsGo_length xs x 1

theorem runBoundsGo_length (sizes : List ℕ) : ∀ acc,
    (runBoundsGo acc sizes).length = sizes.length := by
  induction sizes with
  | nil => intro acc; rfl
  | cons s rest ih => intro acc; simp [runBoundsGo, ih]

theorem runBoundsGo_chain (sizes : List ℕ) : ∀ acc, (∀ s ∈ sizes, 0 < s) →
    chainFrom acc (runBoundsGo acc sizes) (acc + sizes.sum) := by
  induction sizes with
  | nil => intro acc _; simp [runBoundsGo, chainFrom]
  | cons s rest ih =>
    intro acc hpos
    have hb : acc + (s :: rest).sum = (acc + s) + rest.sum := by
      simp [List.sum_cons]; omega
    rw [hb]
    simp only [runBoundsGo, chainFrom]
    exact ⟨by simp, by have := hpos s (by simp); omega,
      ih (acc + s) (fun t ht => hpos t (by simp [ht]))⟩

theorem bandData_shading (L : List (ℕ × (ℕ × ℕ))) :
    bandData ((L.map shadingChunk).flatten) =
      L.map fun ib => (((ib.2.1 : ℚ) - 1/5), ((ib.2.2 : ℚ) - 1/5),
        if ib.1 % 2 = 0 then Color.lightGray else Color.white) := by
  induction L with
  | nil => rfl
  | cons hd tl ih =>
    by_cases h : hd.1 = 0 <;>
      simp [bandData, shadingChunk, List.filterMap_append, h] at ih ⊢ <;>
      exact ih

theorem hlineData_shading (L : List (ℕ × (ℕ × ℕ))) :
    hlineData ((L.map shadingChunk).flatten) =
      (L.filter fun ib => decide (ib.1 ≠ 0)).map
        fun ib => (((ib.2.1 : ℚ) - 1/5), Color.gray) := by
  induction L with
  | nil => rfl
  | cons hd tl ih =>
    by_cases h : hd.1 = 0 <;>
      simp [hlineData, shadingChunk, List.filterMap_append, h,
        List.filter_cons] at ih ⊢ <;>
      exact ih

/-- C5: for every input record sequence, the group-band slot intervals
emitted by `_add_diagnosis_shading` tile `[0, row_count)` exactly in order —
the first starts at 0, each ends where the next starts, non-empty, and the
last ends at row_count — and the number of band instructions emitted equals
the number of maximal runs of equal consecutive diagnosis values. -/
theorem claim5_bands_partition (labels : List String) :
    chainFrom 0 (runBounds (runLengths labels)) labels.length ∧
    (bandData (addDiagnosisShading true labels)).length = numRuns labels := by
  have hd : addDiagnosisShading true labels =
      ((runBounds (runLengths labels)).enum.map shadingChunk).flatten := rfl
  constructor
  · have h := runBoundsGo_chain (runLengths labels) 0 (runLengths_pos labels)
    rw [runLengths_sum] at h
    simpa [runBounds] using h
  · rw [hd, bandData_shading, List.length_map, List.enum_length,
      show runBounds (runLengths labels) = runBoundsGo 0 (runLengths labels)
        from rfl,
      runBoundsGo_length, runLengths_length]

/-- C6: for every maximal run i (0-based) of equal consecutive diagnosis
values spanning slots [start, end), exactly one background band from
start - 0.2 to end - 0.2 is emitted, light gray for even i and white for odd
i, and exactly the runs with i ≠ 0 get a horizontal separator line at
start - 0.2 (gray). -/
theorem claim6_band_colors_separators (labels : List String) :
    bandData (addDiagnosisShading true labels) =
      (runBounds (runLengths labels)).enum.map (fun ib =>
        (((ib.2.1 : ℚ) - 1/5), ((ib.2.2 : ℚ) - 1/5),
         if ib.1 % 2 = 0 then Color.lightGray else Color.white)) ∧
    hlineData (addDiagnosisShading true labels) =
      ((runBounds (runLengths labels)).enum.filter fun ib =>
        decide (ib.1 ≠ 0)).map
        (fun ib => (((ib.2.1 : ℚ) - 1/5), Color.gray)) := by
  have hd : addDiagnosisShading true labels =
      ((runBounds (runLengths labels)).enum.map shadingChunk).flatten := rfl
  exact ⟨by rw [hd, bandData_shading], by rw [hd, hlineData_shading]⟩

/-! ## Pipeline lemmas -/

theorem geQ_le (x : Option ℚ) (c : ℚ) (h : geQ x c = true) :
    ∀ v, x = some v → c ≤ v := by
  intro v hv
  rw [hv] at h
  simpa [geQ] using h

theorem leQ_le (x : Option ℚ) (c : ℚ) (h : leQ x c = true) :
    ∀ v, x = some v → v ≤ c := by
  intro v hv
  rw [hv] at h
  simpa [leQ] using h

theorem mem_insertSorted (r : RawRow) (l : List RawRow) (x : RawRow) :
    x ∈ insertSorted r l ↔ x = r ∨ x ∈ l := by
  induction l with
  | nil => simp [insertSorted]
  | cons y ys ih =>
    simp only [insertSorted]
    split_ifs
    · simp [List.mem_cons]
    · simp only [List.mem_cons, ih]
      tauto

theorem mem_sortData (l : List RawRow) (x : RawRow) :
    x ∈ sortData l ↔ x ∈ l := by
  induction l with
  | nil => simp [sortData]
  | cons y ys ih => simp [sortData, mem_insertSorted, ih]

theorem presentVals_all_true (pvals : List (Option ℚ)) :
    (∀ p ∈ pvals, p.isSome = true) →
    (presentVals (pvals.map fun _ => true) pvals).length = pvals.length := by
  induction pvals with
  | nil => intro _; rfl
  | cons p ps ih =>
    intro hall
    rcases Option.isSome_iff_exists.mp (hall p (by simp)) with ⟨v, rfl⟩
    have hps := ih (fun q hq => hall q (by simp [hq]))
    simp only [presentVals, List.map_cons, List.zip_cons_cons,
      List.filterMap_cons] at hps ⊢
    simpa using hps

/-- C9: every row of a table returned by `load_and_process_data` has
non-null values in all nine numeric columns (six percentiles, both INSS
durations and the episode count), every duration and percentile value is
nonnegative, and the episode count lies within
[MIN_EPISODIOS, MAX_EPISODIOS]; all present percentile values survive the
renderer's missing-value filter, so its absent-percentile and absent-marker
branches are never taken on pipeline-produced rows. -/
theorem claim9_pipeline_invariant (rows : List RawRow) (r : ProcRow)
    (hr : r ∈ loadAndProcess rows) :
    r.durestd.isSome = true ∧ r.duropt.isSome = true ∧
    r.countEpisodios.isSome = true ∧ (∀ p ∈ r.pvals, p.isSome = true) ∧
    (∀ v, r.durestd = some v → 0 ≤ v) ∧
    (∀ v, r.duropt = some v → 0 ≤ v) ∧
    (∀ p v, p ∈ r.pvals → p = some v → 0 ≤ v) ∧
    (∀ v, r.countEpisodios = some v → minEpisodios ≤ v ∧ v ≤ maxEpisodios) ∧
    (presentVals (r.pvals.map fun _ => true) r.pvals).length =
      r.pvals.length := by
  unfold loadAndProcess calcAdditionalFields at hr
  rcases List.mem_map.mp hr with ⟨r0, hr0, rfl⟩
  rw [mem_sortData] at hr0
  unfold cleanData validateRanges at hr0
  simp only [List.mem_filter] at hr0
  obtain ⟨⟨⟨⟨⟨⟨-, hcomp⟩, hstd⟩, hopt⟩, hpv⟩, hcmin⟩, hcmax⟩ := hr0
  simp only [rowComplete, Bool.and_eq_true] at hcomp
  obtain ⟨⟨⟨hstdS, hoptS⟩, hcntS⟩, hpvS⟩ := hcomp
  rw [List.all_eq_true] at hpvS
  rw [List.all_eq_true] at hpv
  refine ⟨hstdS, hoptS, hcntS, hpvS, geQ_le _ _ hstd, geQ_le _ _ hopt,
    fun p v hp hv => geQ_le _ _ (hpv p hp) v hv,
    fun v hv => ⟨geQ_le _ _ hcmin v hv, leQ_le _ _ hcmax v hv⟩,
    presentVals_all_true _ hpvS⟩

/-- Witness for C9 at the one-row input `[rawW]`. -/
theorem claim9_witness :
    procW.durestd.isSome = true ∧
    (∀ v, procW.countEpisodios = some v →
      minEpisodios ≤ v ∧ v ≤ maxEpisodios) := by
  have hmem : procW ∈ loadAndProcess [rawW] := by
    have hlp : loadAndProcess [rawW] = [procW] := rfl
    rw [hlp]
    exact List.mem_singleton_self procW
  have h := claim9_pipeline_invariant [rawW] procW hmem
  exact ⟨h.1, h.2.2.2.2.2.2.2.1⟩

/-! ## The constant-distribution flag -/

theorem filterMap_id_mem (pvals : List (Option ℚ)) (x : ℚ) :
    x ∈ pvals.filterMap id ↔ some x ∈ pvals := by
  simp [List.mem_filterMap]

theorem dedup_length_one_iff (l : List ℚ) :
    l.dedup.length = 1 ↔ ∃ v, v ∈ l ∧ ∀ w ∈ l, w = v := by
  rw [← List.card_toFinset, Finset.card_eq_one]
  constructor
  · rintro ⟨a, ha⟩
    refine ⟨a, ?_, ?_⟩
    · have hm : a ∈ l.toFinset := by
        rw [ha]; exact Finset.mem_singleton_self a
      simpa [List.mem_toFinset] using hm
    · intro w hw
      have hm : w ∈ l.toFinset := List.mem_toFinset.mpr hw
      rw [ha] at hm
      simpa using hm
  · rintro ⟨v, hv, hall⟩
    refine ⟨v, ?_⟩
    ext x
    simp only [List.mem_toFinset, Finset.mem_singleton]
    constructor
    · intro hx; exact hall x hx
    · rintro rfl; exact hv

/-- C10: the percentiles_iguales flag computed by
`_calculate_additional_fields` is true iff the row has exactly one distinct
non-null percentile value across the available percentile columns; in
particular a row with a single present value is flagged true and a row with
no present value is flagged false. -/
theorem claim10_constant_flag (pvals : List (Option ℚ)) :
    percentilesIgualesFlag pvals = true ↔
      ∃ v : ℚ, some v ∈ pvals ∧ ∀ w : ℚ, some w ∈ pvals → w = v := by
  unfold percentilesIgualesFlag distinctPresent
  rw [beq_iff_eq, dedup_length_one_iff]
  constructor
  · rintro ⟨v, hv, hall⟩
    exact ⟨v, (filterMap_id_mem pvals v).mp hv,
      fun w hw => hall w ((filterMap_id_mem pvals w).mpr hw)⟩
  · rintro ⟨v, hv, hall⟩
    exact ⟨v, (filterMap_id_mem pvals v).mpr hv,
      fun w hw => hall w ((filterMap_id_mem pvals w).mp hw)⟩

/-- Witness for C10: a single present percentile value yields flag true (via
the theorem), and an all-missing row yields flag false. -/
theorem claim10_witness :
    percentilesIgualesFlag [some 20, none, none, none, none, none] = true ∧
    percentilesIgualesFlag [none, none, none, none, none, none] = false := by
  constructor
  · refine (claim10_constant_flag _).mpr ⟨20, by simp, ?_⟩
    intro w hw
    simpa using hw
  · rfl

end Dashboard
